import Mathlib

/-!
Shallow embedding of `src/tableau_dimension_mapper/server.py`.

The two cores with non-trivial semantics are embedded here:
the mapping application engine inside the `remap_dimensions` branch of
`call_tool`, and the workbook structural analyzer inside the
`analyze_workbook` branch, together with the CSV-row loaders
(`validate_mapping_file` strict, `remap_dimensions` lenient) and the
file-extension gates.  Strings are modelled as Lean `String`
(a wrapper around `List Char`); Python `str.count`, `str.replace`,
`str.strip`, `str.split`, `str.lower` and `str.endswith` are embedded
with their Python semantics (non-overlapping left-to-right scan for
count/replace, whitespace runs for split).  File input is modelled as a
value argument: CSV sources arrive as the row lists produced by
`csv.reader`, the workbook as its text.
-/

/-- Python whitespace test used by `str.strip` and `str.split`
(ASCII whitespace characters; the engine only meets ASCII here). -/
def pyIsSpace (c : Char) : Bool :=
  c = ' ' || c = '\t' || c = '\n' || c = '\r' || c = '\x0b' || c = '\x0c'

/-- Core of Python `str.count(pat)` for a non-empty pattern `p :: ps`:
scan left to right; `skip` counts characters still to pass over after a
match was consumed. -/
def countFrom (p : Char) (ps : List Char) : List Char → Nat → Nat
  | [], _ => 0
  | _ :: rest, Nat.succ skip => countFrom p ps rest skip
  | c :: rest, 0 =>
      if (p :: ps).isPrefixOf (c :: rest) then countFrom p ps rest ps.length + 1
      else countFrom p ps rest 0

/-- Python `s.count(pat)` over character lists: number of non-overlapping
occurrences, scanning left to right (`len(s) + 1` for the empty pattern,
as in Python). -/
def pyCountL (s pat : List Char) : Nat :=
  match pat with
  | [] => s.length + 1
  | p :: ps => countFrom p ps s 0

/-- Core of Python `str.replace(old, new)` for non-empty `old = p :: ps`:
matched characters are dropped and `new` emitted instead. -/
def replFrom (p : Char) (ps new : List Char) : List Char → Nat → List Char
  | [], _ => []
  | _ :: rest, Nat.succ skip => replFrom p ps new rest skip
  | c :: rest, 0 =>
      if (p :: ps).isPrefixOf (c :: rest) then new ++ replFrom p ps new rest ps.length
      else c :: replFrom p ps new rest 0

/-- Python `s.replace(old, new)` over character lists (for empty `old`,
Python inserts `new` before every character and at the end). -/
def pyReplaceL (s old new : List Char) : List Char :=
  match old with
  | [] => (s.flatMap (fun c => new ++ [c])) ++ new
  | p :: ps => replFrom p ps new s 0

/-- Python `s.count(pat)` on strings. -/
def pyCount (s pat : String) : Nat := pyCountL s.data pat.data

/-- Python `s.replace(old, new)` on strings. -/
def pyReplace (s old new : String) : String := String.mk (pyReplaceL s.data old.data new.data)

/-- Python `s.strip()` over character lists: drop leading whitespace,
then trailing whitespace. -/
def pyStripL (s : List Char) : List Char :=
  (((s.dropWhile pyIsSpace).reverse).dropWhile pyIsSpace).reverse

/-- Python `s.strip()` on strings. -/
def pyStrip (s : String) : String := String.mk (pyStripL s.data)

/-- Python `s.lower()` on strings (ASCII case folding, the only case the
extension checks meet). -/
def pyLower (s : String) : String := String.mk (s.data.map Char.toLower)

/-- Python `s.endswith(suffix)` on strings. -/
def pyEndsWith (s sfx : String) : Bool := sfx.data.isSuffixOf s.data

/-- Python dict lookup `d.get(k, dflt)` over an insertion-ordered
association list. -/
def dictGet {κ α : Type} [DecidableEq κ] : List (κ × α) → κ → α → α
  | [], _, dflt => dflt
  | (k, v) :: rest, key, dflt => if k = key then v else dictGet rest key dflt

/-- Python dict assignment `d[k] = v` over an insertion-ordered
association list: update in place if the key exists, else append. -/
def dictSet {κ α : Type} [DecidableEq κ] : List (κ × α) → κ → α → List (κ × α)
  | [], key, v => [(key, v)]
  | (k, w) :: rest, key, v =>
      if k = key then (key, v) :: rest else (k, w) :: dictSet rest key v

/-- One CSV row of the lenient loader in the `remap_dimensions` branch
(server.py lines 393-395): a row with at least two columns yields a rule
made of the stripped first two columns; shorter rows are skipped. -/
def rowToRule (row : List String) : Option (String × String) :=
  match row with
  | a :: b :: _ => some (pyStrip a, pyStrip b)
  | _ => none

/-- The lenient mapping loader of `remap_dimensions`
(server.py lines 390-395). -/
def loadMappingsLenient (rows : List (List String)) : List (String × String) :=
  rows.filterMap rowToRule

/-- State of the replacement loop of `remap_dimensions`
(server.py lines 408-410): the current workbook text, the running total
`replacements_made`, and the dict `replacements_by_mapping`. -/
structure ApplyState where
  text : String
  made : Nat
  byMapping : List (String × Nat)
deriving DecidableEq

/-- One iteration of the replacement loop (server.py lines 412-417):
count occurrences of `old` in the current text and, only when positive,
replace them all, add to the total and record the count under `old`. -/
def applyStep (st : ApplyState) (rule : String × String) : ApplyState :=
  let occurrences := pyCount st.text rule.1
  if occurrences > 0 then
    { text := pyReplace st.text rule.1 rule.2
      made := st.made + occurrences
      byMapping := dictSet st.byMapping rule.1 occurrences }
  else st

/-- The whole replacement loop of `remap_dimensions`
(server.py lines 408-417). -/
def applyMappings (text : String) (mappings : List (String × String)) : ApplyState :=
  List.foldl applyStep { text := text, made := 0, byMapping := [] } mappings

/-- The per-rule report assembled at server.py lines 425-428: one entry
per mapping rule `(old, new)`, with count `replacements_by_mapping.get(old, 0)`. -/
def replacementDetails (mappings : List (String × String)) (d : List (String × Nat)) :
    List (String × String × Nat) :=
  mappings.map (fun r => (r.1, r.2, dictGet d r.1 0))

/-- Sum of the counts shown in the per-rule report. -/
def detailsTotal (details : List (String × String × Nat)) : Nat :=
  (details.map (fun x => x.2.2)).sum

/-- Outcome of the `remap_dimensions` branch, persistence abstracted:
an empty mapping set is reported as an error before the workbook is
rewritten (server.py lines 397-401); otherwise the rewritten text, the
total and the per-rule report are produced (lines 403-450). -/
inductive RemapOutcome where
  | emptyMapping : RemapOutcome
  | success (rewritten : String) (total : Nat) (report : List (String × String × Nat)) : RemapOutcome
deriving DecidableEq

/-- The `remap_dimensions` branch of `call_tool` on already-read inputs
(server.py lines 388-450). -/
def remapDimensions (rows : List (List String)) (workbook : String) : RemapOutcome :=
  let mappings := loadMappingsLenient rows
  if mappings.isEmpty then .emptyMapping
  else
    let st := applyMappings workbook mappings
    .success st.text st.made (replacementDetails mappings st.byMapping)

-- Specification-side descriptions used by the theorems below.

/-- The text obtained by folding `str.replace` over the rules in file
order (the specification view of the evolving document). -/
def textAfter (t : String) (mappings : List (String × String)) : String :=
  List.foldl (fun a r => pyReplace a r.1 r.2) t mappings

/-- For each rule in file order, the occurrence count of its `original`
measured in the then-current text, paired with that `original`. -/
def runCounts (t : String) : List (String × String) → List (String × Nat)
  | [] => []
  | r :: rest => (r.1, pyCount t r.1) :: runCounts (pyReplace t r.1 r.2) rest

/-- The strict CSV validation loop of `validate_mapping_file`
(server.py lines 304-313): rows are checked in order starting with
1-indexed line `n`; the first row with fewer than two columns aborts the
load with its line number, otherwise the stripped first two columns of
every row are collected. -/
def validateRows (n : Nat) : List (List String) → Except Nat (List (String × String))
  | [] => .ok []
  | row :: rest =>
      match row with
      | a :: b :: _ =>
          match validateRows (n + 1) rest with
          | .error m => .error m
          | .ok ms => .ok ((pyStrip a, pyStrip b) :: ms)
      | _ => .error n

/-- Outcome of the mapping-file validation after the extension gate
(server.py lines 302-327). -/
inductive MappingValidation where
  | badLine (n : Nat) : MappingValidation
  | emptyFile : MappingValidation
  | valid (ms : List (String × String)) : MappingValidation
deriving DecidableEq

/-- The row-validation part of the `validate_mapping_file` branch
(server.py lines 302-327): first malformed row wins, then the
empty-file check, then the rule list is accepted. -/
def validateMappingFile (rows : List (List String)) : MappingValidation :=
  match validateRows 1 rows with
  | .error n => .badLine n
  | .ok [] => .emptyFile
  | .ok ms => .valid ms

/-- Outcome of the `validate_mapping_file` tool including the extension
gate (server.py lines 296-300): a path not ending in `.csv` after
lowercasing is rejected with a user-facing error before the file is
read. -/
inductive MappingToolOutcome where
  | extensionError : MappingToolOutcome
  | result (v : MappingValidation) : MappingToolOutcome
deriving DecidableEq

/-- The `validate_mapping_file` branch of `call_tool`
(server.py lines 288-327), the CSV source passed as its row list. -/
def validateMappingFileTool (path : String) (rows : List (List String)) : MappingToolOutcome :=
  if pyEndsWith (pyLower path) ".csv" then .result (validateMappingFile rows)
  else .extensionError

/-- Outcome of the extension gate of `validate_tableau_workbook`
(server.py lines 343-347): a path not ending in `.twb` after lowercasing
is rejected with a user-facing error before the file is read; otherwise
the branch proceeds to read and parse the content. -/
inductive WorkbookToolOutcome where
  | extensionError : WorkbookToolOutcome
  | proceeds (content : String) : WorkbookToolOutcome
deriving DecidableEq

/-- The extension gate of the `validate_tableau_workbook` branch of
`call_tool` (server.py lines 335-347); the XML inspection that follows
on success is outside the scope of the gate claims. -/
def validateTableauWorkbookTool (path : String) (content : String) : WorkbookToolOutcome :=
  if pyEndsWith (pyLower path) ".twb" then .proceeds content
  else .extensionError

-- The document tree view and the workbook structural analyzer.

/-- A node of the parsed workbook: element label, attribute map
(keys unique), children in document order.  This is the tree the
BeautifulSoup calls in `analyze_workbook` traverse. -/
inductive Node where
  | mk (label : String) (attrs : List (String × String)) (children : List Node) : Node

def Node.label : Node → String
  | .mk l _ _ => l

def Node.attrs : Node → List (String × String)
  | .mk _ a _ => a

def Node.children : Node → List Node
  | .mk _ _ c => c

/-- BeautifulSoup `node.get(key, dflt)`: attribute lookup with default. -/
def attrGet : List (String × String) → String → String → String
  | [], _, dflt => dflt
  | (k, v) :: rest, key, dflt => if k = key then v else attrGet rest key dflt

mutual

/-- BeautifulSoup `soup.find_all(label)` restricted to the subtree of a
node: all nodes with the given label, in document (preorder) order. -/
def findAll (lbl : String) : Node → List Node
  | .mk l a c =>
      (if l = lbl then [Node.mk l a c] else []) ++ findAllList lbl c

/-- `find_all` over a list of sibling nodes, in document order. -/
def findAllList (lbl : String) : List Node → List Node
  | [] => []
  | n :: rest => findAll lbl n ++ findAllList lbl rest

end

/-- The `name` attribute of a node, defaulting to the empty string, as
read at server.py lines 474 and 488. -/
def nodeName (n : Node) : String := attrGet n.attrs "name" ""

/-- The column-collection loop of `analyze_workbook`
(server.py lines 472-476): append a `name` only if non-empty and not
already collected. -/
def collectColumns (root : Node) : List String :=
  (findAll "column" root).foldl
    (fun acc n => if nodeName n ≠ "" ∧ nodeName n ∉ acc then acc ++ [nodeName n] else acc) []

/-- The worksheet-collection loop of `analyze_workbook`
(server.py lines 486-490): append every non-empty `name`, with no
membership check. -/
def collectWorksheets (root : Node) : List String :=
  (findAll "worksheet" root).foldl
    (fun acc n => if nodeName n ≠ "" then acc ++ [nodeName n] else acc) []

/-- Core of Python `str.split()` (no separator argument): accumulate the
current word in reverse; whitespace runs separate words and produce no
empty words. -/
def splitWsAux : List Char → List Char → List String
  | [], cur => if cur.isEmpty then [] else [String.mk cur.reverse]
  | c :: rest, cur =>
      if pyIsSpace c then
        if cur.isEmpty then splitWsAux rest [] else String.mk cur.reverse :: splitWsAux rest []
      else splitWsAux rest (c :: cur)

/-- Python `s.split()` with no argument, as used at server.py line 520. -/
def splitWs (s : String) : List String := splitWsAux s.data []

/-- Python `d[k].append(v)` preceded by the `if k in d` check of
server.py lines 523-526, over an insertion-ordered association list:
append `v` to the list under `k` if the key exists, else insert
`(k, [v])` at the end. -/
def dictAppendEntry : List (String × List String) → String → String → List (String × List String)
  | [], key, v => [(key, [v])]
  | (k, vs) :: rest, key, v =>
      if k = key then (k, vs ++ [v]) :: rest else (k, vs) :: dictAppendEntry rest key v

/-- One iteration of the prefix-grouping loop of `analyze_workbook`
(server.py lines 519-526): a field with at least two whitespace tokens
is grouped under its first token. -/
def clusterStep (acc : List (String × List String)) (col : String) : List (String × List String) :=
  match splitWs col with
  | pfx :: _ :: _ => dictAppendEntry acc pfx col
  | _ => acc

/-- The complete grouping pass over the collected field names
(server.py lines 518-526). -/
def clusterFields (fields : List String) : List (String × List String) :=
  fields.foldl clusterStep []

/-- The clusters that reach the final report: only groups with more than
one member are displayed (server.py lines 531-536). -/
def reportedClusters (fields : List String) : List (String × List String) :=
  (clusterFields fields).filter (fun q => 1 < q.2.length)

-- Helper lemmas about the engine.

theorem replFrom_eq_of_countFrom_zero (p : Char) (ps new : List Char) :
    ∀ s : List Char, countFrom p ps s 0 = 0 → replFrom p ps new s 0 = s := by
  intro s
  induction s with
  | nil => intro _; rfl
  | cons c rest ih =>
    intro h
    by_cases hp : (p :: ps).isPrefixOf (c :: rest)
    · simp [countFrom, hp] at h
    · simp only [countFrom, hp, if_false] at h
      simp [replFrom, hp, ih h]

theorem pyReplace_eq_of_pyCount_zero (t pat new : String) (h : pyCount t pat = 0) :
    pyReplace t pat new = t := by
  cases t with
  | mk td =>
    cases pat with
    | mk pd =>
      cases pd with
      | nil => simp [pyCount, pyCountL] at h
      | cons p ps =>
        simp only [pyCount, pyCountL] at h
        simp [pyReplace, pyReplaceL, replFrom_eq_of_countFrom_zero p ps _ _ h]

theorem textAfter_cons (t : String) (r : String × String) (rest : List (String × String)) :
    textAfter t (r :: rest) = textAfter (pyReplace t r.1 r.2) rest := rfl

theorem applyStep_text (st : ApplyState) (r : String × String) :
    (applyStep st r).text = pyReplace st.text r.1 r.2 := by
  by_cases h : pyCount st.text r.1 > 0
  · simp [applyStep, h]
  · have h0 : pyCount st.text r.1 = 0 := Nat.eq_zero_of_not_pos h
    simp [applyStep, h, pyReplace_eq_of_pyCount_zero st.text r.1 r.2 h0]

theorem applyStep_made (st : ApplyState) (r : String × String) :
    (applyStep st r).made = st.made + pyCount st.text r.1 := by
  by_cases h : pyCount st.text r.1 > 0
  · simp [applyStep, h]
  · have h0 : pyCount st.text r.1 = 0 := Nat.eq_zero_of_not_pos h
    simp [applyStep, h, h0]

theorem foldl_applyStep_text (ms : List (String × String)) :
    ∀ st : ApplyState, (List.foldl applyStep st ms).text = textAfter st.text ms := by
  induction ms with
  | nil => intro st; rfl
  | cons r rest ih =>
    intro st
    rw [List.foldl_cons, ih, textAfter_cons, applyStep_text]

theorem foldl_applyStep_made (ms : List (String × String)) :
    ∀ st : ApplyState, (List.foldl applyStep st ms).made =
      st.made + ((runCounts st.text ms).map Prod.snd).sum := by
  induction ms with
  | nil => intro st; simp [runCounts]
  | cons r rest ih =>
    intro st
    rw [List.foldl_cons, ih, applyStep_made, applyStep_text]
    simp [runCounts]
    omega

theorem dictSet_eq_append {κ α : Type} [DecidableEq κ] (k : κ) (v : α) :
    ∀ d : List (κ × α), k ∉ d.map Prod.fst → dictSet d k v = d ++ [(k, v)]
  | [], _ => rfl
  | (k0, v0) :: rest, h => by
    have hk : ¬ (k0 = k) := by
      intro he
      exact h (by simp [he])
    have hr : k ∉ rest.map Prod.fst := by
      intro hm
      exact h (by simp [hm])
    simp [dictSet, hk, dictSet_eq_append k v rest hr]

theorem dictGet_eq_default {κ α : Type} [DecidableEq κ] (k : κ) (dflt : α) :
    ∀ d : List (κ × α), k ∉ d.map Prod.fst → dictGet d k dflt = dflt
  | [], _ => rfl
  | (k0, v0) :: rest, h => by
    have hk : ¬ (k0 = k) := by
      intro he
      exact h (by simp [he])
    have hr : k ∉ rest.map Prod.fst := by
      intro hm
      exact h (by simp [hm])
    simp [dictGet, hk, dictGet_eq_default k dflt rest hr]

theorem runCounts_map_fst (t : String) :
    ∀ ms : List (String × String), (runCounts t ms).map Prod.fst = ms.map Prod.fst := by
  intro ms
  induction ms generalizing t with
  | nil => rfl
  | cons r rest ih => simp [runCounts, ih]

theorem runCounts_append (ys : List (String × String)) :
    ∀ (xs : List (String × String)) (t : String),
      runCounts t (xs ++ ys) = runCounts t xs ++ runCounts (textAfter t xs) ys
  | [], t => by simp [runCounts, textAfter]
  | x :: xs, t => by
    simp [runCounts, runCounts_append ys xs, textAfter_cons]

theorem foldl_applyStep_byMapping (ms : List (String × String)) :
    ∀ st : ApplyState, (ms.map Prod.fst).Nodup →
      (∀ r ∈ ms, r.1 ∉ st.byMapping.map Prod.fst) →
      (List.foldl applyStep st ms).byMapping =
        st.byMapping ++ (runCounts st.text ms).filter (fun q => 0 < q.2) := by
  induction ms with
  | nil => intro st _ _; simp [runCounts]
  | cons r rest ih =>
    intro st hnd hkeys
    have hnd2 : (rest.map Prod.fst).Nodup := by
      simp only [List.map_cons, List.nodup_cons] at hnd
      exact hnd.2
    have hr1 : r.1 ∉ rest.map Prod.fst := by
      simp only [List.map_cons, List.nodup_cons] at hnd
      exact hnd.1
    rw [List.foldl_cons]
    by_cases h : pyCount st.text r.1 > 0
    · have hfresh : r.1 ∉ st.byMapping.map Prod.fst := hkeys r (by simp)
      have hstep : applyStep st r =
          { text := pyReplace st.text r.1 r.2
            made := st.made + pyCount st.text r.1
            byMapping := st.byMapping ++ [(r.1, pyCount st.text r.1)] } := by
        simp [applyStep, h, dictSet_eq_append r.1 (pyCount st.text r.1) st.byMapping hfresh]
      rw [hstep, ih _ hnd2 ?fresh2]
      case fresh2 =>
        intro q hq
        simp only [List.map_append, List.mem_append]
        intro hcase
        rcases hcase with hin | hin
        · exact hkeys q (by simp [hq]) hin
        · simp at hin
          exact hr1 (hin ▸ List.mem_map_of_mem Prod.fst hq)
      simp [runCounts, h, List.filter_cons]
    · have h0 : pyCount st.text r.1 = 0 := Nat.eq_zero_of_not_pos h
      have hstep : applyStep st r = st := by
        simp [applyStep, h]
      rw [hstep, ih _ hnd2 (fun q hq => hkeys q (by simp [hq]))]
      have hid : pyReplace st.text r.1 r.2 = st.text :=
        pyReplace_eq_of_pyCount_zero st.text r.1 r.2 h0
      simp [runCounts, h0, List.filter_cons, hid]

theorem not_mem_map_fst_filter {κ α : Type} (k : κ) (p : κ × α → Bool) :
    ∀ d : List (κ × α), k ∉ d.map Prod.fst → k ∉ (d.filter p).map Prod.fst := by
  intro d hd hmem
  simp only [List.mem_map] at hmem
  rcases hmem with ⟨q, hq, hqk⟩
  exact hd (List.mem_map.mpr ⟨q, List.mem_of_mem_filter hq, hqk⟩)

theorem map_dictGet_filter_pos :
    ∀ rc : List (String × Nat), (rc.map Prod.fst).Nodup →
      rc.map (fun q => dictGet (rc.filter (fun q2 => 0 < q2.2)) q.1 0) = rc.map Prod.snd := by
  intro rc
  induction rc with
  | nil => intro _; rfl
  | cons e rest ih =>
    intro hnd
    have hk : e.1 ∉ rest.map Prod.fst := by
      simp only [List.map_cons, List.nodup_cons] at hnd
      exact hnd.1
    have hnd2 : (rest.map Prod.fst).Nodup := by
      simp only [List.map_cons, List.nodup_cons] at hnd
      exact hnd.2
    have hhead : dictGet ((e :: rest).filter (fun q2 => 0 < q2.2)) e.1 0 = e.2 := by
      by_cases hv : 0 < e.2
      · simp [List.filter_cons, hv, dictGet]
      · have hv0 : e.2 = 0 := Nat.eq_zero_of_not_pos hv
        have : e.1 ∉ (rest.filter (fun q2 => 0 < q2.2)).map Prod.fst :=
          not_mem_map_fst_filter e.1 (fun q2 => 0 < q2.2) rest hk
        simp [List.filter_cons, hv, dictGet_eq_default e.1 0 _ this, hv0]
    have htail : rest.map (fun q => dictGet ((e :: rest).filter (fun q2 => 0 < q2.2)) q.1 0) =
        rest.map Prod.snd := by
      have hcong : ∀ q ∈ rest,
          dictGet ((e :: rest).filter (fun q2 => 0 < q2.2)) q.1 0 =
          dictGet (rest.filter (fun q2 => 0 < q2.2)) q.1 0 := by
        intro q hq
        have hne : ¬ (e.1 = q.1) := by
          intro he
          exact hk (he ▸ List.mem_map_of_mem Prod.fst hq)
        by_cases hv : 0 < e.2
        · simp [List.filter_cons, hv, dictGet, hne]
        · simp [List.filter_cons, hv]
      rw [List.map_congr_left hcong, ih hnd2]
    simp only [List.map_cons]
    rw [hhead, htail]

theorem reported_counts_eq (t : String) (ms : List (String × String))
    (hnd : (ms.map Prod.fst).Nodup) :
    ms.map (fun r => dictGet (applyMappings t ms).byMapping r.1 0) =
      (runCounts t ms).map Prod.snd := by
  have hb : (applyMappings t ms).byMapping =
      (runCounts t ms).filter (fun q => 0 < q.2) := by
    have h := foldl_applyStep_byMapping ms { text := t, made := 0, byMapping := [] } hnd
      (by simp)
    simpa [applyMappings] using h
  rw [hb]
  have hfst : (ms.map Prod.fst).Nodup → ((runCounts t ms).map Prod.fst).Nodup := by
    rw [runCounts_map_fst]
    exact id
  have h1 : ms.map (fun r => dictGet ((runCounts t ms).filter (fun q2 => 0 < q2.2)) r.1 0) =
      (runCounts t ms).map
        (fun q => dictGet ((runCounts t ms).filter (fun q2 => 0 < q2.2)) q.1 0) := by
    have hmf : ms.map Prod.fst = (runCounts t ms).map Prod.fst := (runCounts_map_fst t ms).symm
    calc ms.map (fun r => dictGet ((runCounts t ms).filter (fun q2 => 0 < q2.2)) r.1 0)
        = (ms.map Prod.fst).map
            (fun k => dictGet ((runCounts t ms).filter (fun q2 => 0 < q2.2)) k 0) := by
          rw [List.map_map]
          rfl
      _ = ((runCounts t ms).map Prod.fst).map
            (fun k => dictGet ((runCounts t ms).filter (fun q2 => 0 < q2.2)) k 0) := by
          rw [hmf]
      _ = (runCounts t ms).map
            (fun q => dictGet ((runCounts t ms).filter (fun q2 => 0 < q2.2)) q.1 0) := by
          rw [List.map_map]
          rfl
  rw [h1, map_dictGet_filter_pos (runCounts t ms) (hfst hnd)]

theorem rowToRule_eq_none (row : List String) : rowToRule row = none ↔ row.length < 2 := by
  cases row with
  | nil => simp [rowToRule]
  | cons a tl =>
    cases tl with
    | nil => simp [rowToRule]
    | cons b rest => simp [rowToRule]

theorem foldl_applyStep_no_match :
    ∀ (ms : List (String × String)) (t : String), (∀ r ∈ ms, pyCount t r.1 = 0) →
      List.foldl applyStep { text := t, made := 0, byMapping := [] } ms =
        { text := t, made := 0, byMapping := [] }
  | [], _, _ => rfl
  | r :: rest, t, h => by
    have h0 : pyCount t r.1 = 0 := h r (by simp)
    have hstep : applyStep { text := t, made := 0, byMapping := [] } r =
        { text := t, made := 0, byMapping := [] } := by
      simp [applyStep, h0]
    rw [List.foldl_cons, hstep,
      foldl_applyStep_no_match rest t (fun q hq => h q (by simp [hq]))]

theorem validateRows_error_at (row : List String) (hrow : row.length < 2)
    (tail : List (List String)) :
    ∀ (pre : List (List String)) (n : Nat), (∀ q ∈ pre, 2 ≤ q.length) →
      validateRows n (pre ++ row :: tail) = .error (n + pre.length)
  | [], n, _ => by
    cases row with
    | nil => simp [validateRows]
    | cons a tl =>
      cases tl with
      | nil => simp [validateRows]
      | cons b rest =>
        exfalso
        simp only [List.length_cons] at hrow
        omega
  | q :: pre, n, hpre => by
    have hq : 2 ≤ q.length := hpre q (by simp)
    cases q with
    | nil => simp at hq
    | cons a qtl =>
      cases qtl with
      | nil => simp at hq
      | cons b qrest =>
        have ih := validateRows_error_at row hrow tail pre (n + 1)
          (fun x hx => hpre x (by simp [hx]))
        rw [List.cons_append]
        show (match validateRows (n + 1) (pre ++ row :: tail) with
          | .error m => Except.error m
          | .ok ms => Except.ok ((pyStrip a, pyStrip b) :: ms)) =
            Except.error (n + ((a :: b :: qrest) :: pre).length)
        rw [ih]
        simp only [List.length_cons]
        congr 1
        omega

theorem mem_loadMappingsLenient (rows : List (List String)) (r : String × String)
    (hr : r ∈ loadMappingsLenient rows) :
    ∃ a b rest, (a :: b :: rest) ∈ rows ∧ r = (pyStrip a, pyStrip b) := by
  unfold loadMappingsLenient at hr
  rcases List.mem_filterMap.mp hr with ⟨row, hrow, hsome⟩
  cases row with
  | nil => simp [rowToRule] at hsome
  | cons a tl =>
    cases tl with
    | nil => simp [rowToRule] at hsome
    | cons b rest =>
      refine ⟨a, b, rest, hrow, ?_⟩
      simp only [rowToRule, Option.some.injEq] at hsome
      exact hsome.symm

theorem mem_validateRows (r : String × String) :
    ∀ (rows : List (List String)) (n : Nat) (ms : List (String × String)),
      validateRows n rows = .ok ms → r ∈ ms →
      ∃ a b rest, (a :: b :: rest) ∈ rows ∧ r = (pyStrip a, pyStrip b)
  | [], n, ms, hok, hr => by
    simp only [validateRows, Except.ok.injEq] at hok
    subst hok
    simp at hr
  | row :: rows, n, ms, hok, hr => by
    cases row with
    | nil => simp [validateRows] at hok
    | cons a tl =>
      cases tl with
      | nil => simp [validateRows] at hok
      | cons b rest =>
        cases hv : validateRows (n + 1) rows with
        | error m => simp [validateRows, hv] at hok
        | ok ms2 =>
          simp only [validateRows, hv, Except.ok.injEq] at hok
          subst hok
          rcases List.mem_cons.mp hr with he | hin
          · exact ⟨a, b, rest, by simp, he⟩
          · rcases mem_validateRows r rows (n + 1) ms2 hv hin with ⟨a2, b2, r2, hm, he⟩
            exact ⟨a2, b2, r2, by simp [hm], he⟩

-- Claim theorems for the mapping application engine and the loaders.

/-- C1: the engine of `remap_dimensions` processes rules strictly in
file order over a single evolving text: the final text is the left fold
of replace-all over the rules in order, the reported total sums, rule by
rule, the occurrence count of each `original` measured in the
then-current text (as mutated by the prior rules), and on
rules [("A","B"),("B","C")] with text "A" the rewritten text is "C" and
the counts recorded under "A" and "B" are both 1. -/
theorem c1_engine_ordered_over_evolving_text :
    (∀ (t : String) (ms : List (String × String)), (applyMappings t ms).text = textAfter t ms)
    ∧ (∀ (t : String) (ms : List (String × String)),
        (applyMappings t ms).made = ((runCounts t ms).map Prod.snd).sum)
    ∧ applyMappings "A" [("A", "B"), ("B", "C")] =
        { text := "C", made := 2, byMapping := [("A", 1), ("B", 1)] }
    ∧ remapDimensions [["A", "B"], ["B", "C"]] "A" =
        .success "C" 2 [("A", "B", 1), ("B", "C", 1)] := by
  refine ⟨?_, ?_, by decide, by decide⟩
  · intro t ms
    have h := foldl_applyStep_text ms { text := t, made := 0, byMapping := [] }
    simpa [applyMappings] using h
  · intro t ms
    have h := foldl_applyStep_made ms { text := t, made := 0, byMapping := [] }
    simpa [applyMappings] using h

/-- C2 counterexample: as stated the claim fails when two rules share an
`original`.  For rules [("A","B"),("A","C")] on text "A", the second
rule's `original` "A" does not occur in the then-current text "B", yet
its entry in the replacement report shows count 1, not 0 (the report is
keyed by `original`, so the entry repeats the first rule's count). -/
theorem c2_counterexample :
    pyCount (textAfter "A" [("A", "B")]) "A" = 0
    ∧ remapDimensions [["A", "B"], ["A", "C"]] "A" =
        .success "B" 1 [("A", "B", 1), ("A", "C", 1)] :=
  ⟨by decide, by decide⟩

/-- C2 amended: for a mapping set whose `original` values are pairwise
distinct, a rule whose `original` does not occur in the then-current
text is reported with count 0 and still appears as a key in the
replacement report; and for every mapping set (duplicates allowed), when
no rule matches anywhere the operation succeeds with output equal to the
input, total 0, and a report listing every rule with count 0. -/
theorem c2_amended_zero_count_rules_listed :
    (∀ (t : String) (pre tail : List (String × String)) (r : String × String),
      (((pre ++ r :: tail).map Prod.fst).Nodup) →
      pyCount (textAfter t pre) r.1 = 0 →
      dictGet (applyMappings t (pre ++ r :: tail)).byMapping r.1 0 = 0
      ∧ (r.1, r.2, 0) ∈ replacementDetails (pre ++ r :: tail)
          (applyMappings t (pre ++ r :: tail)).byMapping)
    ∧ (∀ (rows : List (List String)) (t : String),
      loadMappingsLenient rows ≠ [] →
      (∀ r ∈ loadMappingsLenient rows, pyCount t r.1 = 0) →
      remapDimensions rows t =
        .success t 0 ((loadMappingsLenient rows).map (fun r => (r.1, r.2, 0)))) := by
  constructor
  · intro t pre tail r hnd hzero
    have hnd2 : ((pre.map Prod.fst) ++ ((r :: tail).map Prod.fst)).Nodup := by
      simpa [List.map_append] using hnd
    have hkeys : r.1 ∉ pre.map Prod.fst ∧ r.1 ∉ tail.map Prod.fst := by
      rcases List.nodup_append.mp hnd2 with ⟨h1, h2, h3⟩
      constructor
      · intro hmem
        exact h3 hmem (by simp)
      · have h4 : (r.1 :: tail.map Prod.fst).Nodup := by
          simpa only [List.map_cons] using h2
        exact (List.nodup_cons.mp h4).1
    have hb : (applyMappings t (pre ++ r :: tail)).byMapping =
        (runCounts t (pre ++ r :: tail)).filter (fun q => 0 < q.2) := by
      have h := foldl_applyStep_byMapping (pre ++ r :: tail)
        { text := t, made := 0, byMapping := [] } hnd (by simp)
      simpa [applyMappings] using h
    have hrc : runCounts t (pre ++ r :: tail) =
        runCounts t pre ++ (r.1, 0) ::
          runCounts (pyReplace (textAfter t pre) r.1 r.2) tail := by
      rw [runCounts_append (r :: tail) pre t]
      simp [runCounts, hzero]
    have hget : dictGet (applyMappings t (pre ++ r :: tail)).byMapping r.1 0 = 0 := by
      rw [hb, hrc]
      apply dictGet_eq_default
      intro hmem
      simp only [List.filter_append, List.filter_cons, List.map_append,
        List.mem_append, decide_eq_true_eq] at hmem
      rcases hmem with hmem | hmem
      · rcases List.mem_map.mp hmem with ⟨q, hq, hq1⟩
        have : q.1 ∈ (runCounts t pre).map Prod.fst :=
          List.mem_map_of_mem Prod.fst (List.mem_of_mem_filter hq)
        rw [runCounts_map_fst] at this
        exact hkeys.1 (hq1 ▸ this)
      · have h00 : ¬ (0 < 0) := by omega
        simp only [h00, if_false] at hmem
        rcases List.mem_map.mp hmem with ⟨q, hq, hq1⟩
        have : q.1 ∈ (runCounts (pyReplace (textAfter t pre) r.1 r.2) tail).map Prod.fst :=
          List.mem_map_of_mem Prod.fst (List.mem_of_mem_filter hq)
        rw [runCounts_map_fst] at this
        exact hkeys.2 (hq1 ▸ this)
    refine ⟨hget, ?_⟩
    unfold replacementDetails
    exact List.mem_map.mpr ⟨r, by simp, by rw [hget]⟩
  · intro rows t hne hzero
    have hfold := foldl_applyStep_no_match (loadMappingsLenient rows) t hzero
    have hempty : (loadMappingsLenient rows).isEmpty = false := by
      cases h : loadMappingsLenient rows with
      | nil => exact absurd h hne
      | cons a l => rfl
    simp only [remapDimensions, hempty, Bool.false_eq_true, if_false, applyMappings, hfold]
    simp [replacementDetails, dictGet]

/-- C3 counterexample: with two rules sharing `original` "A", on text
"A" the engine makes 3 replacements in total, but the report entries sum
to 4 (the dict entry under "A" was overwritten by the second rule's
count and is shown for both rules). -/
theorem c3_counterexample :
    remapDimensions [["A", "AA"], ["A", "B"]] "A" =
      .success "BB" 3 [("A", "AA", 2), ("A", "B", 2)]
    ∧ detailsTotal [("A", "AA", 2), ("A", "B", 2)] = 4 :=
  ⟨by decide, by decide⟩

/-- C3 amended: when the rules' `original` values are pairwise distinct,
the sum of the per-rule counts in the replacement report equals the
reported total number of replacements.  (With duplicate `original`
values the dict entry is overwritten and the equality can fail, see the
counterexample.) -/
theorem c3_amended_report_sums_to_total (t : String) (ms : List (String × String))
    (hnd : (ms.map Prod.fst).Nodup) :
    detailsTotal (replacementDetails ms (applyMappings t ms).byMapping) =
      (applyMappings t ms).made := by
  have hmade : (applyMappings t ms).made = ((runCounts t ms).map Prod.snd).sum := by
    have h := foldl_applyStep_made ms { text := t, made := 0, byMapping := [] }
    simpa [applyMappings] using h
  have hrep := reported_counts_eq t ms hnd
  rw [hmade]
  unfold detailsTotal replacementDetails
  rw [List.map_map]
  have hcomp : ((fun x : String × String × Nat => x.2.2) ∘
      (fun r : String × String => (r.1, r.2, dictGet (applyMappings t ms).byMapping r.1 0))) =
      fun r : String × String => dictGet (applyMappings t ms).byMapping r.1 0 := rfl
  rw [hcomp, hrep]

/-- C3 witness: the amended theorem applied at distinct originals. -/
theorem c3_amended_report_sums_to_total_witness :
    detailsTotal (replacementDetails [("A", "B"), ("B", "C")]
      (applyMappings "A" [("A", "B"), ("B", "C")]).byMapping) =
      (applyMappings "A" [("A", "B"), ("B", "C")]).made :=
  c3_amended_report_sums_to_total "A" [("A", "B"), ("B", "C")] (by decide)

/-- C2 witness: the amended theorem applied at the spec example
rules=[("Foo","Bar")], text="Baz". -/
theorem c2_amended_zero_count_rules_listed_witness :
    remapDimensions [["Foo", "Bar"]] "Baz" = .success "Baz" 0 [("Foo", "Bar", 0)] := by
  have h := c2_amended_zero_count_rules_listed.2 [["Foo", "Bar"]] "Baz"
    (by decide) (by decide)
  simpa using h

/-- C4: applying an empty mapping set (zero usable rows, i.e. every row
has fewer than two columns) is exactly the case in which
`remap_dimensions` stops with the mapping-set-empty error; no rewritten
output is produced in that case (the error outcome carries none). -/
theorem c4_empty_mapping_set_fails (rows : List (List String)) (workbook : String) :
    (remapDimensions rows workbook = .emptyMapping ↔ loadMappingsLenient rows = [])
    ∧ (loadMappingsLenient rows = [] ↔ ∀ row ∈ rows, row.length < 2) := by
  constructor
  · constructor
    · intro h
      by_contra hne
      have hempty : (loadMappingsLenient rows).isEmpty = false := by
        cases hx : loadMappingsLenient rows with
        | nil => exact absurd hx hne
        | cons a l => rfl
      simp [remapDimensions, hempty] at h
    · intro h
      have hempty : (loadMappingsLenient rows).isEmpty = true := by
        simp [h]
      simp [remapDimensions, hempty]
  · unfold loadMappingsLenient
    rw [List.filterMap_eq_nil_iff]
    constructor
    · intro h row hrow
      exact (rowToRule_eq_none row).mp (h row hrow)
    · intro h row hrow
      exact (rowToRule_eq_none row).mpr (h row hrow)

/-- C4 witness: a sole malformed row loads as the empty mapping set and
the operation fails with the mapping-set-empty error. -/
theorem c4_empty_mapping_set_fails_witness :
    remapDimensions [["x"]] "abc" = .emptyMapping :=
  (c4_empty_mapping_set_fails [["x"]] "abc").1.mpr (by decide)

/-- C5: a row with fewer than 2 columns makes the strict loader of
`validate_mapping_file` fail at the first such row, reporting its
1-indexed line number, while the lenient loader of `remap_dimensions`
skips every such row and keeps the remaining rows. -/
theorem c5_strict_validate_lenient_apply :
    (∀ (pre tail : List (List String)) (row : List String),
      (∀ q ∈ pre, 2 ≤ q.length) → row.length < 2 →
      validateMappingFile (pre ++ row :: tail) = .badLine (pre.length + 1))
    ∧ (∀ (pre tail : List (List String)) (row : List String),
      row.length < 2 →
      loadMappingsLenient (pre ++ row :: tail) = loadMappingsLenient (pre ++ tail)) := by
  constructor
  · intro pre tail row hpre hrow
    have h := validateRows_error_at row hrow tail pre 1 hpre
    simp only [validateMappingFile, h]
    congr 1
    omega
  · intro pre tail row hrow
    have hnone : rowToRule row = none := (rowToRule_eq_none row).mpr hrow
    simp [loadMappingsLenient, List.filterMap_append, hnone]

/-- C5 witness: a 1-column row at line 3 makes validation fail
referencing line 3, while the lenient loader drops it. -/
theorem c5_strict_validate_lenient_apply_witness :
    validateMappingFile [["a", "b"], ["c", "d"], ["x"]] = .badLine 3
    ∧ loadMappingsLenient [["a", "b"], ["c", "d"], ["x"]] =
        loadMappingsLenient [["a", "b"], ["c", "d"]] := by
  constructor
  · have h := c5_strict_validate_lenient_apply.1 [["a", "b"], ["c", "d"]] [] ["x"]
      (by decide) (by decide)
    simpa using h
  · have h := c5_strict_validate_lenient_apply.2 [["a", "b"], ["c", "d"]] [] ["x"]
      (by decide)
    simpa using h

-- Helper lemmas and claim theorems for the workbook structural analyzer.

theorem foldl_append_nonempty (f : Node → String) :
    ∀ (nodes : List Node) (acc : List String),
      nodes.foldl (fun a n => if f n ≠ "" then a ++ [f n] else a) acc =
        acc ++ (nodes.map f).filter (fun s => s ≠ "")
  | [], acc => by simp
  | n :: rest, acc => by
    rw [List.foldl_cons]
    by_cases h : f n = ""
    · rw [if_neg (not_not_intro h), foldl_append_nonempty f rest acc]
      simp [List.filter_cons, h]
    · rw [if_pos h, foldl_append_nonempty f rest (acc ++ [f n])]
      simp [List.filter_cons, h, List.append_assoc]

/-- Specification-side de-duplication keeping the first occurrence of
each element. -/
def dedupKeepFirst : List String → List String
  | [] => []
  | x :: rest => x :: dedupKeepFirst (rest.filter (fun y => y ≠ x))
termination_by l => l.length
decreasing_by
  simp only [List.length_cons]
  exact Nat.lt_succ_of_le (List.length_filter_le _ rest)

theorem dedupKeepFirst_cons (x : String) (rest : List String) :
    dedupKeepFirst (x :: rest) = x :: dedupKeepFirst (rest.filter (fun y => y ≠ x)) := by
  rw [dedupKeepFirst]

theorem foldl_dedup_step :
    ∀ (xs : List String) (acc : List String),
      xs.foldl (fun a x => if x ≠ "" ∧ x ∉ a then a ++ [x] else a) acc =
        acc ++ dedupKeepFirst ((xs.filter (fun y => y ≠ "")).filter (fun y => y ∉ acc))
  | [], acc => by simp [dedupKeepFirst]
  | x :: rest, acc => by
    by_cases hx : x = ""
    · rw [List.foldl_cons]
      simp only [hx, ne_eq, not_true_eq_false, false_and, if_false]
      rw [foldl_dedup_step rest acc]
      simp
    · by_cases hmem : x ∈ acc
      · rw [List.foldl_cons]
        simp only [hx, ne_eq, not_false_eq_true, hmem, not_true_eq_false, and_false, if_false]
        rw [foldl_dedup_step rest acc]
        simp [List.filter_cons, hx, hmem]
      · rw [List.foldl_cons]
        simp only [hx, ne_eq, not_false_eq_true, hmem, true_and, if_true]
        rw [foldl_dedup_step rest (acc ++ [x])]
        have hfil : (rest.filter (fun y => y ≠ "")).filter (fun y => y ∉ acc ++ [x]) =
            ((rest.filter (fun y => y ≠ "")).filter (fun y => y ∉ acc)).filter
              (fun y => y ≠ x) := by
          simp only [List.filter_filter]
          apply List.filter_congr
          intro y hy
          by_cases h1 : y ∈ acc <;> by_cases h2 : y = x <;> by_cases h3 : y = "" <;>
            simp [List.mem_append, h1, h2, h3]
        rw [hfil]
        simp [List.filter_cons, hx, hmem, dedupKeepFirst_cons]

theorem mem_of_mem_dedupKeepFirst_aux :
    ∀ (n : Nat) (l : List String), l.length ≤ n →
      ∀ a, a ∈ dedupKeepFirst l → a ∈ l := by
  intro n
  induction n with
  | zero =>
    intro l hl a ha
    cases l with
    | nil => simp [dedupKeepFirst] at ha
    | cons x rest => simp at hl
  | succ n ih =>
    intro l hl a ha
    cases l with
    | nil => simp [dedupKeepFirst] at ha
    | cons x rest =>
      rw [dedupKeepFirst_cons] at ha
      rcases List.mem_cons.mp ha with h | h
      · simp [h]
      · have hlen : (rest.filter (fun y => y ≠ x)).length ≤ n :=
          le_trans (List.length_filter_le _ _) (Nat.le_of_succ_le_succ (by simpa using hl))
        exact List.mem_cons_of_mem x (List.mem_of_mem_filter (ih _ hlen a h))

theorem nodup_dedupKeepFirst_aux :
    ∀ (n : Nat) (l : List String), l.length ≤ n → (dedupKeepFirst l).Nodup := by
  intro n
  induction n with
  | zero =>
    intro l hl
    cases l with
    | nil => simp [dedupKeepFirst]
    | cons x rest => simp at hl
  | succ n ih =>
    intro l hl
    cases l with
    | nil => simp [dedupKeepFirst]
    | cons x rest =>
      rw [dedupKeepFirst_cons]
      have hlen : (rest.filter (fun y => y ≠ x)).length ≤ n :=
        le_trans (List.length_filter_le _ _) (Nat.le_of_succ_le_succ (by simpa using hl))
      refine List.nodup_cons.mpr ⟨?_, ih _ hlen⟩
      intro hmem
      have hx := mem_of_mem_dedupKeepFirst_aux n _ hlen x hmem
      have := List.of_mem_filter hx
      simp at this

theorem nodup_dedupKeepFirst (l : List String) : (dedupKeepFirst l).Nodup :=
  nodup_dedupKeepFirst_aux l.length l (le_refl _)

/-- C6 counterexample: two `worksheet` nodes with the same non-empty
name "W" produce the collection ["W", "W"]: the worksheet loop of
`analyze_workbook` has no membership check, so a duplicate name is NOT
collected exactly once. -/
theorem c6_counterexample :
    collectWorksheets (Node.mk "workbook" [] [Node.mk "worksheet" [("name", "W")] [],
        Node.mk "worksheet" [("name", "W")] []]) = ["W", "W"]
    ∧ (["W", "W"] : List String) ≠ ["W"] :=
  ⟨by decide, by decide⟩

/-- C6 amended: the worksheets collection of `analyze_workbook` appends
the `name` attribute of every `worksheet` node whenever it is non-empty,
in document order, with duplicates preserved (no membership check, so it
is an ordered sequence, not a set-like collection). -/
theorem c6_amended_worksheets_keep_duplicates (root : Node) :
    collectWorksheets root =
      ((findAll "worksheet" root).map nodeName).filter (fun s => s ≠ "") := by
  unfold collectWorksheets
  have h := foldl_append_nonempty nodeName (findAll "worksheet" root) []
  simpa using h

/-- C7: the fields collection of `analyze_workbook` de-duplicates
column names: it equals the first-occurrence de-duplication of the
non-empty `name` attributes of the `column` nodes in document order
(so it contains no duplicates), and two columns both named "Revenue"
yield "Revenue" exactly once, in first-seen position. -/
theorem c7_fields_dedup_first_seen :
    (∀ root : Node, collectColumns root =
      dedupKeepFirst (((findAll "column" root).map nodeName).filter (fun s => s ≠ "")))
    ∧ (∀ root : Node, (collectColumns root).Nodup)
    ∧ collectColumns (Node.mk "workbook" []
        [Node.mk "column" [("name", "Revenue")] [],
         Node.mk "column" [("name", "Revenue")] [],
         Node.mk "column" [("name", "Cost")] []]) = ["Revenue", "Cost"] := by
  have hmain : ∀ root : Node, collectColumns root =
      dedupKeepFirst (((findAll "column" root).map nodeName).filter (fun s => s ≠ "")) := by
    intro root
    unfold collectColumns
    rw [← List.foldl_map nodeName
      (fun (a : List String) (x : String) => if x ≠ "" ∧ x ∉ a then a ++ [x] else a)]
    rw [foldl_dedup_step]
    simp
  refine ⟨hmain, ?_, by decide⟩
  intro root
  rw [hmain root]
  exact nodup_dedupKeepFirst _

-- Clustering invariants for C8.

theorem dictAppendEntry_forall (pfx col : String)
    (P : String → String → Prop) (hcol : P pfx col) :
    ∀ acc : List (String × List String),
      (∀ e ∈ acc, ∀ f ∈ e.2, P e.1 f) →
      ∀ e ∈ dictAppendEntry acc pfx col, ∀ f ∈ e.2, P e.1 f
  | [], hacc => by
    intro e he f hf
    simp only [dictAppendEntry, List.mem_singleton] at he
    subst he
    simp only [List.mem_singleton] at hf
    subst hf
    exact hcol
  | (k, ws) :: rest, hacc => by
    intro e he f hf
    by_cases hk : k = pfx
    · subst hk
      simp only [dictAppendEntry, if_pos rfl] at he
      rcases List.mem_cons.mp he with he1 | he2
      · subst he1
        rcases List.mem_append.mp hf with hf1 | hf2
        · exact hacc (k, ws) (by simp) f hf1
        · simp only [List.mem_singleton] at hf2
          subst hf2
          exact hcol
      · exact hacc e (by simp [he2]) f hf
    · simp only [dictAppendEntry, hk, if_false] at he
      rcases List.mem_cons.mp he with he1 | he2
      · exact hacc e (by simp [he1]) f hf
      · exact dictAppendEntry_forall pfx col P hcol rest
          (fun e2 he2x f2 hf2 => hacc e2 (by simp [he2x]) f2 hf2) e he2 f hf

theorem clusterStep_forall (P : String → String → Prop)
    (hP : ∀ pfx b rest col, splitWs col = pfx :: b :: rest → P pfx col)
    (acc : List (String × List String)) (col : String)
    (hacc : ∀ e ∈ acc, ∀ f ∈ e.2, P e.1 f) :
    ∀ e ∈ clusterStep acc col, ∀ f ∈ e.2, P e.1 f := by
  cases hs : splitWs col with
  | nil => simpa [clusterStep, hs] using hacc
  | cons pfx tl =>
    cases tl with
    | nil => simpa [clusterStep, hs] using hacc
    | cons b rest =>
      have hcol : P pfx col := hP pfx b rest col hs
      have h := dictAppendEntry_forall pfx col P hcol acc hacc
      simpa [clusterStep, hs] using h

theorem foldl_clusterStep_forall (P : String → String → Prop)
    (hP : ∀ pfx b rest col, splitWs col = pfx :: b :: rest → P pfx col) :
    ∀ (fields : List String) (acc : List (String × List String)),
      (∀ e ∈ acc, ∀ f ∈ e.2, P e.1 f) →
      ∀ e ∈ fields.foldl clusterStep acc, ∀ f ∈ e.2, P e.1 f
  | [], acc, hacc => by simpa using hacc
  | g :: gs, acc, hacc => by
    rw [List.foldl_cons]
    exact foldl_clusterStep_forall P hP gs (clusterStep acc g)
      (clusterStep_forall P hP acc g hacc)

theorem dictAppendEntry_mem (pfx col : String) :
    ∀ acc : List (String × List String),
      ∃ vs, (pfx, vs) ∈ dictAppendEntry acc pfx col ∧ col ∈ vs
  | [] => ⟨[col], by simp [dictAppendEntry], by simp⟩
  | (k, ws) :: rest => by
    by_cases hk : k = pfx
    · subst hk
      exact ⟨ws ++ [col], by simp [dictAppendEntry], by simp⟩
    · obtain ⟨vs, hmem, hcol⟩ := dictAppendEntry_mem pfx col rest
      exact ⟨vs, by simp [dictAppendEntry, hk, hmem], hcol⟩

theorem dictAppendEntry_preserve (key v k0 : String) (vs0 : List String) :
    ∀ acc : List (String × List String), (k0, vs0) ∈ acc →
      ∃ vs, (k0, vs) ∈ dictAppendEntry acc key v ∧ vs0 ⊆ vs
  | [], h => by simp at h
  | (k, ws) :: rest, h => by
    rcases List.mem_cons.mp h with he | hin
    · have hk0 : k0 = k ∧ vs0 = ws := by
        constructor
        · exact congrArg Prod.fst he
        · exact congrArg Prod.snd he
      rcases hk0 with ⟨hk1, hk2⟩
      subst hk1
      subst hk2
      by_cases hk : k0 = key
      · subst hk
        exact ⟨vs0 ++ [v], by simp [dictAppendEntry], by simp⟩
      · exact ⟨vs0, by simp [dictAppendEntry, hk], by simp⟩
    · by_cases hk : k = key
      · subst hk
        exact ⟨vs0, by simp [dictAppendEntry, hin], by simp⟩
      · obtain ⟨vs, hmem, hsub⟩ := dictAppendEntry_preserve key v k0 vs0 rest hin
        exact ⟨vs, by simp [dictAppendEntry, hk, hmem], hsub⟩

theorem clusterStep_preserve (k0 f col : String) (acc : List (String × List String))
    (h : ∃ vs, (k0, vs) ∈ acc ∧ f ∈ vs) :
    ∃ vs, (k0, vs) ∈ clusterStep acc col ∧ f ∈ vs := by
  obtain ⟨vs, hmem, hf⟩ := h
  cases hs : splitWs col with
  | nil => exact ⟨vs, by simpa [clusterStep, hs] using hmem, hf⟩
  | cons pfx tl =>
    cases tl with
    | nil => exact ⟨vs, by simpa [clusterStep, hs] using hmem, hf⟩
    | cons b rest =>
      obtain ⟨vs2, hmem2, hsub⟩ := dictAppendEntry_preserve pfx col k0 vs acc hmem
      exact ⟨vs2, by simpa [clusterStep, hs] using hmem2, hsub hf⟩

theorem foldl_clusterStep_preserve (k0 f : String) :
    ∀ (fields : List String) (acc : List (String × List String)),
      (∃ vs, (k0, vs) ∈ acc ∧ f ∈ vs) →
      ∃ vs, (k0, vs) ∈ fields.foldl clusterStep acc ∧ f ∈ vs
  | [], acc, h => by simpa using h
  | g :: gs, acc, h => by
    rw [List.foldl_cons]
    exact foldl_clusterStep_preserve k0 f gs (clusterStep acc g)
      (clusterStep_preserve k0 f g acc h)

theorem foldl_clusterStep_mem (f pfx b : String) (rest : List String)
    (hsplit : splitWs f = pfx :: b :: rest) :
    ∀ (fields : List String) (acc : List (String × List String)), f ∈ fields →
      ∃ vs, (pfx, vs) ∈ fields.foldl clusterStep acc ∧ f ∈ vs
  | [], acc, h => by simp at h
  | g :: gs, acc, hmem => by
    rw [List.foldl_cons]
    rcases List.mem_cons.mp hmem with he | hin
    · subst he
      have hstep : clusterStep acc f = dictAppendEntry acc pfx f := by
        simp [clusterStep, hsplit]
      rw [hstep]
      exact foldl_clusterStep_preserve pfx f gs _ (dictAppendEntry_mem pfx f acc)
    · exact foldl_clusterStep_mem f pfx b rest hsplit gs (clusterStep acc g) hin

/-- C8: every cluster in the final report of `analyze_workbook` has at
least two members, each member has at least two whitespace tokens and
first token equal to the cluster key (so single-token fields never
cluster); every field with at least two tokens is grouped under its
first token; and the fields ["Region North","Region South","Profit"]
yield exactly the cluster ("Region", ["Region North","Region South"]). -/
theorem c8_prefix_clusters :
    (∀ (fields : List String) (e : String × List String), e ∈ reportedClusters fields →
      2 ≤ e.2.length ∧ ∀ f ∈ e.2, ∃ b rest, splitWs f = e.1 :: b :: rest)
    ∧ (∀ (fields : List String) (f : String), f ∈ fields →
      ∀ (pfx b : String) (rest : List String), splitWs f = pfx :: b :: rest →
      ∃ vs, (pfx, vs) ∈ clusterFields fields ∧ f ∈ vs)
    ∧ reportedClusters ["Region North", "Region South", "Profit"] =
        [("Region", ["Region North", "Region South"])] := by
  refine ⟨?_, ?_, by decide⟩
  · intro fields e he
    have hfil := List.mem_filter.mp he
    constructor
    · have := hfil.2
      simp only [decide_eq_true_eq] at this
      omega
    · have hinv := foldl_clusterStep_forall
        (fun pfx f => ∃ b rest, splitWs f = pfx :: b :: rest)
        (fun pfx b rest col hs => ⟨b, rest, hs⟩) fields []
        (by simp) e hfil.1
      exact hinv
  · intro fields f hmem pfx b rest hsplit
    exact foldl_clusterStep_mem f pfx b rest hsplit fields [] hmem

/-- C8 witness: the multi-token field "Region North" is grouped under
its first token "Region" in the spec example. -/
theorem c8_prefix_clusters_witness :
    ∃ vs, ("Region", vs) ∈ clusterFields ["Region North", "Region South", "Profit"]
      ∧ "Region North" ∈ vs :=
  c8_prefix_clusters.2.1 ["Region North", "Region South", "Profit"] "Region North"
    (by simp) "Region" "North" [] (by decide)

-- Whitespace-trimming invariants for C9.

/-- A character list that does not start with whitespace. -/
def noLeadWs : List Char → Bool
  | [] => true
  | c :: _ => !pyIsSpace c

/-- A string with neither leading nor trailing whitespace. -/
def isStrippedStr (s : String) : Bool := noLeadWs s.data && noLeadWs s.data.reverse

theorem noLeadWs_dropWhile : ∀ l : List Char, noLeadWs (l.dropWhile pyIsSpace) = true
  | [] => rfl
  | c :: rest => by
    by_cases h : pyIsSpace c
    · simp only [List.dropWhile_cons, h, if_true]
      exact noLeadWs_dropWhile rest
    · simp [List.dropWhile_cons, h, noLeadWs]

theorem noLeadWs_dropTrailing (l : List Char) (h : noLeadWs l = true) :
    noLeadWs ((l.reverse.dropWhile pyIsSpace).reverse) = true := by
  cases l with
  | nil => rfl
  | cons c rest =>
    have hc : pyIsSpace c = false := by
      simpa [noLeadWs] using h
    rw [List.reverse_cons, List.dropWhile_append]
    by_cases he : (rest.reverse.dropWhile pyIsSpace).isEmpty = true
    · rw [if_pos he]
      simp [List.dropWhile_cons, hc, noLeadWs]
    · rw [if_neg he, List.reverse_append]
      simp [noLeadWs, hc]

theorem isStripped_pyStrip (s : String) : isStrippedStr (pyStrip s) = true := by
  unfold isStrippedStr pyStrip pyStripL
  rw [Bool.and_eq_true]
  constructor
  · exact noLeadWs_dropTrailing _ (noLeadWs_dropWhile s.data)
  · rw [List.reverse_reverse]
    exact noLeadWs_dropWhile _

/-- C9 counterexample: neither loader enforces non-emptiness of the
trimmed `original`.  The row ["  ", "x"] loads (in both entry points) as
the rule ("", "x") whose `original` is empty after trimming, and the
strict validator even accepts the file as valid. -/
theorem c9_counterexample :
    loadMappingsLenient [["  ", "x"]] = [("", "x")]
    ∧ validateMappingFile [["  ", "x"]] = .valid [("", "x")]
    ∧ pyStrip "  " = "" :=
  ⟨by decide, by decide, by decide⟩

/-- C9 amended: every rule produced by either loader has both fields
equal to the whitespace-stripped first two columns of some row of the
source, and hence carries no surrounding whitespace; the non-emptiness
of `original` after trimming is NOT guaranteed (see the
counterexample). -/
theorem c9_amended_rules_are_trimmed :
    (∀ (rows : List (List String)) (r : String × String), r ∈ loadMappingsLenient rows →
      (∃ a b rest, (a :: b :: rest) ∈ rows ∧ r = (pyStrip a, pyStrip b))
      ∧ isStrippedStr r.1 = true ∧ isStrippedStr r.2 = true)
    ∧ (∀ (rows : List (List String)) (ms : List (String × String)) (r : String × String),
      validateMappingFile rows = .valid ms → r ∈ ms →
      (∃ a b rest, (a :: b :: rest) ∈ rows ∧ r = (pyStrip a, pyStrip b))
      ∧ isStrippedStr r.1 = true ∧ isStrippedStr r.2 = true) := by
  constructor
  · intro rows r hr
    obtain ⟨a, b, rest, hrow, he⟩ := mem_loadMappingsLenient rows r hr
    refine ⟨⟨a, b, rest, hrow, he⟩, ?_, ?_⟩
    · rw [he]
      exact isStripped_pyStrip a
    · rw [he]
      exact isStripped_pyStrip b
  · intro rows ms r hval hr
    have hok : validateRows 1 rows = .ok ms := by
      cases hv : validateRows 1 rows with
      | error n => simp [validateMappingFile, hv] at hval
      | ok l =>
        cases l with
        | nil => simp [validateMappingFile, hv] at hval
        | cons m ltail =>
          simp only [validateMappingFile, hv, MappingValidation.valid.injEq] at hval
          subst hval
          rfl
    obtain ⟨a, b, rest, hrow, he⟩ := mem_validateRows r rows 1 ms hok hr
    refine ⟨⟨a, b, rest, hrow, he⟩, ?_, ?_⟩
    · rw [he]
      exact isStripped_pyStrip a
    · rw [he]
      exact isStripped_pyStrip b

/-- C9 witness: the amended theorem applied to the row [" a ", " b "],
which loads as the trimmed rule ("a", "b"). -/
theorem c9_amended_rules_are_trimmed_witness :
    (∃ a b rest, (a :: b :: rest) ∈ [[" a ", " b "]]
      ∧ (("a", "b") : String × String) = (pyStrip a, pyStrip b))
    ∧ isStrippedStr (("a", "b") : String × String).1 = true
    ∧ isStrippedStr (("a", "b") : String × String).2 = true :=
  c9_amended_rules_are_trimmed.1 [[" a ", " b "]] ("a", "b") (by decide)

-- Extension gates for C10.

theorem pyEndsWith_iff (s sfx : String) :
    pyEndsWith s sfx = true ↔ ∃ pre : String, s = pre ++ sfx := by
  unfold pyEndsWith
  rw [List.isSuffixOf_iff_suffix]
  constructor
  · rintro ⟨t, ht⟩
    refine ⟨String.mk t, ?_⟩
    apply String.ext
    rw [String.data_append]
    exact ht.symm
  · rintro ⟨pre, hpre⟩
    refine ⟨pre.data, ?_⟩
    rw [hpre, String.data_append]

/-- C10: the extension preconditions of the two validation tools are
case-insensitive and checked before any file content matters: the
workbook gate passes exactly when the lowercased path ends in ".twb"
(that is, the lowercased path decomposes as some string followed by
".twb"), the mapping gate exactly when the lowercased path ends in
".csv"; on a failing path each tool returns the user-facing
extension-error outcome, independent of any content; and the upper-case
paths "BOOK.TWB" and "Map.CSV" are accepted. -/
theorem c10_extension_gates_case_insensitive :
    (∀ path : String, pyEndsWith (pyLower path) ".twb" = true ↔
        ∃ pre : String, pyLower path = pre ++ ".twb")
    ∧ (∀ path : String, pyEndsWith (pyLower path) ".csv" = true ↔
        ∃ pre : String, pyLower path = pre ++ ".csv")
    ∧ (∀ (path content : String), pyEndsWith (pyLower path) ".twb" = false →
        validateTableauWorkbookTool path content = .extensionError)
    ∧ (∀ (path content1 content2 : String), pyEndsWith (pyLower path) ".twb" = false →
        validateTableauWorkbookTool path content1 = validateTableauWorkbookTool path content2)
    ∧ (∀ (path : String) (rows : List (List String)), pyEndsWith (pyLower path) ".csv" = false →
        validateMappingFileTool path rows = .extensionError)
    ∧ validateTableauWorkbookTool "BOOK.TWB" "c" = .proceeds "c"
    ∧ validateMappingFileTool "Map.CSV" [["a", "b"]] = .result (.valid [("a", "b")]) := by
  refine ⟨fun path => pyEndsWith_iff (pyLower path) ".twb",
    fun path => pyEndsWith_iff (pyLower path) ".csv", ?_, ?_, ?_, by decide, by decide⟩
  · intro path content h
    simp [validateTableauWorkbookTool, h]
  · intro path c1 c2 h
    simp [validateTableauWorkbookTool, h]
  · intro path rows h
    simp [validateMappingFileTool, h]

/-- C10 witness: a path with the wrong extension is rejected with the
user-facing error outcome, whatever the content. -/
theorem c10_extension_gates_case_insensitive_witness :
    validateTableauWorkbookTool "book.xlsx" "c" = .extensionError :=
  c10_extension_gates_case_insensitive.2.2.1 "book.xlsx" "c" (by decide)

